import Mathlib

/-!
Verification of the acoustic feature pipeline of Vector-Vibe.

The pipeline under study lives in `src/handlers/cmds.py` and
`src/callbacks/user_cb.py`:

* `extract_mfcc` (user_cb.py:52-55) computes `librosa.feature.mfcc(y, sr, n_mfcc=20)`,
  a matrix of shape `(D, T)` whose rows are the `D = 20` coefficients and whose
  columns are the `T` time frames, and persists `np.array(mfcc).tobytes()` — the
  row-major flattening of that `(D, T)` matrix into 4-byte IEEE-754 floats.
* `calculate_mean_mfcc` (cmds.py:53-69) rebuilds each stored buffer with
  `np.frombuffer(mfcc, dtype=np.float32).reshape(20, -1).mean(axis=1)`, groups the
  resulting per-track mean vectors by artist into a Python dict (insertion order),
  takes per-artist element-wise mean (`np.mean(vectors, axis=0)`) and population
  variance (`np.var(vectors, axis=0)`), then averages both families across artists
  and concatenates them into a 40-vector.
* `match_users` (cmds.py:71-75) scores two such vectors with
  `max(0, cosine_similarity([vec1], [vec2])[0][0] * 100)` using sklearn.

The embedding models a stored 4-byte float as an exact rational (the codec moves
values around without arithmetic, so the model is bit-faithful there; the
aggregation claims are exact-arithmetic claims), and models a persisted byte
buffer at float granularity: one list element per 4-byte float, in storage
order. The similarity engine is modelled over the reals, since cosine
similarity needs square roots. The coefficient dimension hard-wired to `20` in
the source appears as an explicit parameter `D`; every theorem about the
running system instantiates it at `20`.
-/

namespace VectorVibe

/-- Model of `np.mean` of a one-dimensional array: sum divided by length.
(For the empty list numpy yields NaN; that case is never reached below.) -/
def listMean (l : List ℚ) : ℚ := l.sum / (l.length : ℚ)

/-- Cut the first `n` consecutive rows of `k` elements each off a flat list:
the row structure that `reshape(n, -1)` imposes on a flat buffer of `n * k`
elements (row `r` is positions `r*k` to `r*k + k - 1`). -/
def takeRows : ℕ → ℕ → List ℚ → List (List ℚ)
  | 0, _, _ => []
  | n + 1, k, l => l.take k :: takeRows n k (l.drop k)

/-- Model of `np.frombuffer(mfcc, dtype=np.float32).reshape(D, -1)` (cmds.py:60), at
4-byte-float granularity: the flat stored buffer is reinterpreted as a matrix
with `D` rows (one per coefficient) whose row length is inferred. numpy raises —
modelled as `none` — when the element count is a nonzero non-multiple of `D`
(and, below this model's granularity, when the byte length is not a multiple
of 4). An empty buffer is a degenerate corner: numpy reshapes it to a `(D, 0)`
matrix whose row means are NaN, a value with no rational counterpart; the
spec's invariants (`T ≥ 1`, no NaN) exclude it, the model maps it to `none`,
and no theorem below depends on that case. -/
def decode (D : ℕ) (blob : List ℚ) : Option (List (List ℚ)) :=
  match blob with
  | [] => none
  | x :: xs =>
      if (x :: xs).length % D = 0 then some (takeRows D ((x :: xs).length / D) (x :: xs))
      else none

/-- Model of `.mean(axis=1)` on a `(D, T)` matrix: the list of row means, one per
coefficient — the per-track mean vector of cmds.py:60. -/
def rowMeans (m : List (List ℚ)) : List ℚ := m.map listMean

/-- Column `i` of a list of vectors (entries beyond a vector's length read as 0;
all vectors reaching these definitions have equal length, so the default is
never consulted). -/
def colAt (vs : List (List ℚ)) (i : ℕ) : List ℚ := vs.map (fun w => w.getD i 0)

/-- Model of `np.mean(vectors, axis=0)` (cmds.py:63, 66-67): element-wise mean of a
non-empty list of equal-length vectors; the result length is the common length,
read off the first vector. -/
def colMean (vs : List (List ℚ)) : List ℚ :=
  match vs with
  | [] => []
  | v :: _ => (List.range v.length).map (fun i => listMean (colAt vs i))

/-- Model of `np.var(vectors, axis=0)` (cmds.py:64): element-wise population variance —
the mean of squared deviations from the column mean, denominator = count
(numpy's default `ddof semantics = 0`). -/
def colVar (vs : List (List ℚ)) : List ℚ :=
  match vs with
  | [] => []
  | v :: _ =>
      (List.range v.length).map (fun i =>
        listMean ((colAt vs i).map (fun x => (x - listMean (colAt vs i)) ^ 2)))

/-- The grouping of `(track-mean, artist)` pairs performed by the dict loop
`artist_mfcc.setdefault(artist, []).append(mfcc_vector)` (cmds.py:58-61):
one group per distinct artist, keyed in first-occurrence order (Python dict
insertion order), each group holding that artist's track-mean vectors in
encounter order. `firstDedup` is the key order; `artistTracks` the group body. -/
def firstDedup : List String → List String
  | [] => []
  | a :: rest => a :: (firstDedup rest).filter (fun b => b != a)

def artistTracks (ps : List (List ℚ × String)) (a : String) : List (List ℚ) :=
  (ps.filter (fun p => p.2 == a)).map Prod.fst

def groupByArtist (ps : List (List ℚ × String)) : List (String × List (List ℚ)) :=
  (firstDedup (ps.map Prod.snd)).map (fun a => (a, artistTracks ps a))

/-- The decoding pass of the `for mfcc, artist in tracks:` loop (cmds.py:59-61):
each stored buffer is decoded in order and replaced by its per-track mean
vector; the first numpy failure aborts the whole loop (`none`), since the
Python code installs no exception handler. -/
def decodeTracks (D : ℕ) : List (List ℚ × String) → Option (List (List ℚ × String))
  | [] => some []
  | p :: ps =>
      match decode D p.1 with
      | none => none
      | some m => (decodeTracks D ps).map (fun rest => (rowMeans m, p.2) :: rest)

/-- The aggregation tail of `calculate_mean_mfcc` (cmds.py:63-69), applied to
the decoded `(track-mean, artist)` pairs: per-artist mean and population
variance of the track means, then the mean of each family across artists
(`np.zeros(20)` when a family is empty, which only happens for an empty dict),
concatenated. -/
def aggregatePairs (D : ℕ) (pairs : List (List ℚ × String)) : List ℚ :=
  let groups := groupByArtist pairs
  let mean_vectors := groups.map (fun g => colMean g.2)
  let var_vectors := groups.map (fun g => colVar g.2)
  (if mean_vectors.isEmpty then List.replicate D 0 else colMean mean_vectors) ++
    (if var_vectors.isEmpty then List.replicate D 0 else colMean var_vectors)

/-- Embedding of `calculate_mean_mfcc` (cmds.py:53-69). Input: the user's stored
`(mfcc-bytes, artist)` rows; output: the 2·D taste vector, or `none` when a
stored buffer fails to decode (the Python code has no handler, so the numpy
error aborts the whole computation). `D` is `20` in the source. -/
def calculate_mean_mfcc (D : ℕ) (tracks : List (List ℚ × String)) : Option (List ℚ) :=
  match tracks with
  | [] => some (List.replicate (2 * D) 0)
  | t :: ts =>
      match decodeTracks D (t :: ts) with
      | none => none
      | some pairs => some (aggregatePairs D pairs)

/-- C1: the concrete aggregation scenario. Two stored tracks by artist "A" over
coefficient dimension D = 2: the first with two frames (coefficient rows
`[0,2]` and `[0,2]`, track mean `(1,1)`), the second with one frame `(3,3)`.
The aggregator yields artist mean `(2,2)` and population variance `(1,1)`
(denominator 2 = count, not count − 1, which would give `(2,2)`), hence the
taste vector `(2,2,1,1)`. -/
theorem c1_concrete_scenario :
    calculate_mean_mfcc 2 [([0, 2, 0, 2], "A"), ([3, 3], "A")] = some [2, 2, 1, 1] := by
  norm_num [calculate_mean_mfcc, decodeTracks, decode, takeRows, rowMeans, aggregatePairs,
    groupByArtist, firstDedup, artistTracks, colMean, colVar, colAt, listMean, List.range_succ]

/-- C2: the empty library yields the zero taste vector of dimension 2·D —
all 40 components zero at the source dimension D = 20. -/
theorem c2_empty_library (D : ℕ) :
    calculate_mean_mfcc D [] = some (List.replicate (2 * D) 0) := rfl

/-! Section: the fingerprint codec.

`extract_mfcc` (user_cb.py:52-55) persists `np.array(mfcc).tobytes()`, the
row-major flattening of the librosa `(D, T)` matrix whose rows are
coefficients; `calculate_mean_mfcc` (cmds.py:60) reads it back with
`np.frombuffer(...).reshape(D, -1)`, modelled by `decode` above. -/

/-- Model of `np.array(mfcc).tobytes()` (user_cb.py:55) at 4-byte-float granularity:
row-major flattening of the stored `(D, T)` coefficient matrix. -/
def encode (m : List (List ℚ)) : List ℚ := m.flatten

/-- Frame `t` of a stored coefficient matrix `m`: its `t`-th column, one value
per coefficient row. This is the spec's view of the fingerprint as an ordered
sequence of frames, each holding `D` coefficients. -/
def frameAt (m : List (List ℚ)) (t : ℕ) : List ℚ := m.map (fun row => row.getD t 0)

/-- The spec-side frame sequence of a stored `(D, T)` matrix: frames `0 … T-1`
in time order. -/
def framesOf (m : List (List ℚ)) (T : ℕ) : List (List ℚ) := (List.range T).map (frameAt m)

/-- Modelled from the spec: the byte layout §6 asserts for persisted
fingerprints — "all D coefficients of frame 0 first, then all D coefficients of
frame 1, and so on", i.e. the frame-major flattening of the frame sequence. -/
def frameMajorLayout (m : List (List ℚ)) (T : ℕ) : List ℚ := (framesOf m T).flatten

lemma map_getD_range (l : List ℚ) : (List.range l.length).map (fun i => l.getD i 0) = l := by
  induction l with
  | nil => rfl
  | cons x xs ih =>
      rw [List.length_cons, List.range_succ_eq_map, List.map_cons, List.map_map]
      simp only [Function.comp_def, List.getD_cons_succ, List.getD_cons_zero]
      rw [ih]

lemma flatten_length_of_rows {T : ℕ} :
    ∀ {m : List (List ℚ)}, (∀ r ∈ m, r.length = T) → m.flatten.length = m.length * T := by
  intro m
  induction m with
  | nil => intro _; simp
  | cons r rest ih =>
      intro h
      have hr : r.length = T := h r (List.mem_cons_self r rest)
      have hrest := ih (fun s hs => h s (List.mem_cons_of_mem r hs))
      simp [List.flatten_cons, hr, hrest, Nat.succ_mul, Nat.add_comm]

lemma takeRows_flatten {T : ℕ} :
    ∀ {m : List (List ℚ)}, (∀ r ∈ m, r.length = T) → takeRows m.length T m.flatten = m := by
  intro m
  induction m with
  | nil => intro _; rfl
  | cons r rest ih =>
      intro h
      have hr : r.length = T := h r (List.mem_cons_self r rest)
      have hrest := ih (fun s hs => h s (List.mem_cons_of_mem r hs))
      simp only [List.length_cons, List.flatten_cons, takeRows]
      rw [List.take_left' hr, List.drop_left' hr, hrest]

/-- C3: bit-exact round-trip of the codec. For every well-formed fingerprint —
a stored matrix with `D ≥ 1` coefficient rows, each row carrying the same
`T ≥ 1` frame values — decoding the encoded buffer reconstructs the matrix
exactly. (The codec only moves values; no arithmetic is involved, so exactness
over the rational model is bit-exactness over float32.) -/
theorem c3_roundtrip (D T : ℕ) (m : List (List ℚ)) (hD : 0 < D) (hT : 0 < T)
    (hlen : m.length = D) (hrows : ∀ r ∈ m, r.length = T) :
    decode D (encode m) = some m := by
  have hflat : m.flatten.length = D * T := by
    rw [flatten_length_of_rows hrows, hlen]
  have hpos : 0 < m.flatten.length := by
    rw [hflat]; exact Nat.mul_pos hD hT
  rcases hj : m.flatten with _ | ⟨x, xs⟩
  · rw [hj] at hpos; simp at hpos
  · rw [encode, hj, decode]
    rw [hj] at hflat
    rw [hflat, Nat.mul_mod_right, if_pos rfl, Nat.mul_div_cancel_left T hD]
    rw [← hj, ← hlen, takeRows_flatten hrows]

/-- Witness for C3 at a concrete well-formed fingerprint (D = 2, T = 2). -/
theorem c3_roundtrip_witness :
    decode 2 (encode [[1, 2], [3, 4]]) = some [[1, 2], [3, 4]] :=
  c3_roundtrip 2 2 [[1, 2], [3, 4]] (by decide) (by decide) (by decide) (by decide)

/-- Counterexample to C4 as stated. The well-formed fingerprint with stored
coefficient matrix `[[1,3],[2,4]]` (D = 2 coefficients, T = 2 frames, so frame 0
is `(1,2)` and frame 1 is `(3,4)`) is persisted by the encoder as `[1,3,2,4]`,
not as the frame-major sequence `[1,2,3,4]` the claim asserts. -/
theorem c4_counterexample :
    ([[1, 3], [2, 4]] : List (List ℚ)).length = 2 ∧
      (∀ r ∈ ([[1, 3], [2, 4]] : List (List ℚ)), r.length = 2) ∧
      encode [[1, 3], [2, 4]] ≠ frameMajorLayout [[1, 3], [2, 4]] 2 := by
  refine ⟨rfl, by decide, ?_⟩
  norm_num [encode, frameMajorLayout, framesOf, frameAt, List.range_succ]

/-- C4 amended: the persisted buffer is the flat sequence of the `T × D`
4-byte float values in **coefficient-major** order — all `T` values of
coefficient 0 (its value in frame 0, frame 1, …), then all `T` values of
coefficient 1, and so on — i.e. the transpose of the layout the spec asserts. -/
theorem c4_amended_coeff_major (D T : ℕ) (m : List (List ℚ)) (hlen : m.length = D)
    (hrows : ∀ r ∈ m, r.length = T) :
    encode m = ((List.range D).map (fun d => (framesOf m T).map (fun fr => fr.getD d 0))).flatten := by
  have hmap : (List.range D).map (fun d => (framesOf m T).map (fun fr => fr.getD d 0)) = m := by
    subst hlen
    apply List.ext_getElem
    · simp
    · intro i hi hm
      have him : i < m.length := by simpa using hm
      simp only [List.getElem_map, List.getElem_range]
      have hcol : ∀ t : ℕ, (frameAt m t).getD i 0 = m[i].getD t 0 := by
        intro t
        have hlt : i < (m.map (fun row => row.getD t 0)).length := by simpa using him
        rw [frameAt, List.getD_eq_getElem _ 0 hlt, List.getElem_map]
      calc (framesOf m T).map (fun fr => fr.getD i 0)
          = (List.range T).map (fun t => m[i].getD t 0) := by
            simp only [framesOf, List.map_map]
            exact List.map_congr_left (fun t _ => hcol t)
        _ = m[i] := by
            rw [← hrows m[i] (List.getElem_mem him)]
            exact map_getD_range m[i]
  rw [hmap]; rfl

/-- Witness for the amended C4 at the fingerprint of the counterexample. -/
theorem c4_amended_witness :
    encode [[1, 3], [2, 4]] =
      ((List.range 2).map
        (fun d => (framesOf [[1, 3], [2, 4]] 2).map (fun fr => fr.getD d 0))).flatten :=
  c4_amended_coeff_major 2 2 [[1, 3], [2, 4]] (by decide) (by decide)

/-! Section: the similarity engine.

`match_users` (cmds.py:71-75) scores two taste vectors with
`max(0, cosine_similarity([vec1], [vec2])[0][0] * 100)`. sklearn's
`cosine_similarity` first validates that the two inputs have the same number
of features, raising `ValueError` otherwise (the spec's `DimensionMismatch`),
then L2-normalizes each row — rows of zero norm are left as zero, so a zero
vector has cosine 0 against anything — and takes the dot product. Taste-vector
components are modelled as reals, since cosine similarity needs square roots. -/

/-- The error with which the similarity computation aborts: sklearn's
`ValueError` for inputs with differing feature counts, named `DimensionMismatch`
by the spec. -/
inductive SimError where
  | dimensionMismatch
  deriving DecidableEq

/-- Dot product of two coordinate lists. -/
def dot (a b : List ℝ) : ℝ := (List.zipWith (fun x y => x * y) a b).sum

/-- Cosine similarity as computed by `cosine_similarity([a], [b])[0][0]`:
zero when either vector has zero norm (sklearn's `normalize` leaves zero rows
untouched), the normalized dot product otherwise. -/
noncomputable def cosineSim (a b : List ℝ) : ℝ :=
  if Real.sqrt (dot a a) = 0 ∨ Real.sqrt (dot b b) = 0 then 0
  else dot a b / (Real.sqrt (dot a a) * Real.sqrt (dot b b))

/-- The similarity score of cmds.py:75: sklearn's dimension check, then
`max(0, cos * 100)`. -/
noncomputable def computeSimilarity (a b : List ℝ) : Except SimError ℝ :=
  if a.length = b.length then Except.ok (max 0 (cosineSim a b * 100))
  else Except.error SimError.dimensionMismatch

lemma dot_comm (a b : List ℝ) : dot a b = dot b a := by
  unfold dot
  rw [List.zipWith_comm_of_comm _ (fun x y => mul_comm x y) a b]

lemma dot_cons (x y : ℝ) (a b : List ℝ) : dot (x :: a) (y :: b) = x * y + dot a b := by
  simp [dot]

lemma dot_self_nonneg (a : List ℝ) : 0 ≤ dot a a := by
  induction a with
  | nil => simp [dot]
  | cons x t ih => rw [dot_cons]; nlinarith [sq_nonneg x]

/-- Cauchy–Schwarz for list dot products, squared form. -/
lemma dot_sq_le (a : List ℝ) : ∀ b : List ℝ, (dot a b) ^ 2 ≤ dot a a * dot b b := by
  induction a with
  | nil => intro b; simp [dot]
  | cons x t ih =>
      intro b
      cases b with
      | nil => simp [dot]
      | cons y s =>
          have h := ih s
          have hA := dot_self_nonneg t
          have hB := dot_self_nonneg s
          rw [dot_cons, dot_cons, dot_cons]
          rcases eq_or_lt_of_le hB with hB0 | hBpos
          · have hd : dot t s = 0 := by nlinarith [sq_nonneg (dot t s)]
            rw [hd, ← hB0]
            nlinarith [mul_nonneg hA (sq_nonneg y), sq_nonneg (x * y)]
          · nlinarith [sq_nonneg (x * dot s s - y * dot t s),
              mul_nonneg (add_nonneg (sq_nonneg y) hB) (sub_nonneg.mpr h)]

lemma dot_le_sqrt_mul (a b : List ℝ) :
    dot a b ≤ Real.sqrt (dot a a) * Real.sqrt (dot b b) := by
  calc dot a b ≤ |dot a b| := le_abs_self _
    _ = Real.sqrt ((dot a b) ^ 2) := (Real.sqrt_sq_eq_abs _).symm
    _ ≤ Real.sqrt (dot a a * dot b b) := Real.sqrt_le_sqrt (dot_sq_le a b)
    _ = Real.sqrt (dot a a) * Real.sqrt (dot b b) := Real.sqrt_mul (dot_self_nonneg a) _

lemma cosineSim_comm (a b : List ℝ) : cosineSim a b = cosineSim b a := by
  unfold cosineSim
  by_cases ha : Real.sqrt (dot a a) = 0 <;> by_cases hb : Real.sqrt (dot b b) = 0 <;>
    simp [ha, hb, dot_comm a b, mul_comm]

lemma cosineSim_le_one (a b : List ℝ) : cosineSim a b ≤ 1 := by
  unfold cosineSim
  by_cases h : Real.sqrt (dot a a) = 0 ∨ Real.sqrt (dot b b) = 0
  · rw [if_pos h]; norm_num
  · rw [if_neg h]
    push_neg at h
    have ha : 0 < Real.sqrt (dot a a) := lt_of_le_of_ne (Real.sqrt_nonneg _) (Ne.symm h.1)
    have hb : 0 < Real.sqrt (dot b b) := lt_of_le_of_ne (Real.sqrt_nonneg _) (Ne.symm h.2)
    exact (div_le_one (mul_pos ha hb)).mpr (dot_le_sqrt_mul a b)

/-- C5: the similarity score is symmetric — for taste vectors of equal
dimension, swapping the two users' vectors does not change the result. -/
theorem c5_symmetry (a b : List ℝ) (h : a.length = b.length) :
    computeSimilarity a b = computeSimilarity b a := by
  unfold computeSimilarity
  rw [if_pos h, if_pos h.symm, cosineSim_comm]

/-- Witness for C5 at two concrete equal-length vectors. -/
theorem c5_symmetry_witness :
    computeSimilarity [1, 2] [3, 4] = computeSimilarity [3, 4] [1, 2] :=
  c5_symmetry [1, 2] [3, 4] rfl

/-- C6: every score the similarity engine returns lies in [0, 100] — the lower
clamp discards negative cosines and the Cauchy–Schwarz inequality caps the
cosine at 1. -/
theorem c6_bounds (a b : List ℝ) (s : ℝ) (h : computeSimilarity a b = Except.ok s) :
    0 ≤ s ∧ s ≤ 100 := by
  unfold computeSimilarity at h
  by_cases hl : a.length = b.length
  · rw [if_pos hl] at h
    injection h with h
    subst h
    refine ⟨le_max_left _ _, max_le (by norm_num) ?_⟩
    nlinarith [cosineSim_le_one a b]
  · rw [if_neg hl] at h
    cases h

/-- Witness for C6: the engine on `[1]` and `[1]` returns 100, which the
theorem places in [0, 100]. -/
theorem c6_bounds_witness : (0 : ℝ) ≤ 100 ∧ (100 : ℝ) ≤ 100 :=
  c6_bounds [1] [1] 100 (by norm_num [computeSimilarity, cosineSim, dot])

lemma dot_self_pos (a : List ℝ) (h : a ≠ List.replicate a.length 0) : 0 < dot a a := by
  induction a with
  | nil => simp at h
  | cons x t ih =>
      rw [dot_cons]
      by_cases hx : x = 0
      · subst hx
        have ht : t ≠ List.replicate t.length 0 := by
          intro he
          exact h (by simp [List.replicate, ← he])
        nlinarith [ih ht]
      · nlinarith [dot_self_nonneg t, sq_nonneg x, mul_self_pos.mpr hx]

/-- C7: a non-zero taste vector compared with itself scores exactly 100. -/
theorem c7_self_similarity (a : List ℝ) (h : a ≠ List.replicate a.length 0) :
    computeSimilarity a a = Except.ok 100 := by
  have hpos := dot_self_pos a h
  have hs : 0 < Real.sqrt (dot a a) := Real.sqrt_pos.mpr hpos
  unfold computeSimilarity cosineSim
  rw [if_pos rfl, if_neg (by push_neg; exact ⟨ne_of_gt hs, ne_of_gt hs⟩)]
  rw [Real.mul_self_sqrt (dot_self_nonneg a), div_self (ne_of_gt hpos)]
  norm_num

/-- Witness for C7 at the concrete non-zero vector `[3]`. -/
theorem c7_self_similarity_witness : computeSimilarity [3] [3] = Except.ok 100 :=
  c7_self_similarity [3] (by simp)

/-- C9: taste vectors of differing lengths make the similarity computation
fail with the dimension-mismatch error instead of returning a score. -/
theorem c9_dimension_mismatch (a b : List ℝ) (h : a.length ≠ b.length) :
    computeSimilarity a b = Except.error SimError.dimensionMismatch := by
  unfold computeSimilarity
  rw [if_neg h]

/-- Witness for C9 at the spec's example lengths 4 and 6. -/
theorem c9_dimension_mismatch_witness :
    computeSimilarity [1, 2, 3, 4] [1, 2, 3, 4, 5, 6] =
      Except.error SimError.dimensionMismatch :=
  c9_dimension_mismatch [1, 2, 3, 4] [1, 2, 3, 4, 5, 6] (by decide)

/-! Section: error propagation in the aggregation (C8). -/

/-- A stored buffer whose element count is not a multiple of `D` (such a count
is necessarily nonzero, so the byte length is not a positive multiple of
`D × 4`) fails to decode. -/
lemma decode_eq_none {D : ℕ} {blob : List ℚ}
    (h : blob.length % D ≠ 0) : decode D blob = none := by
  cases blob with
  | nil => rfl
  | cons x xs => rw [decode, if_neg h]

/-- The decoded `(track-mean, artist)` pair of a single library row, as an
optional value: the unit of work of the loop body at cmds.py:59-61. -/
def decodedOpt (D : ℕ) (p : List ℚ × String) : Option (List ℚ × String) :=
  (decode D p.1).map (fun m => (rowMeans m, p.2))

lemma decodeTracks_eq_none {D : ℕ} {q : List ℚ × String} :
    ∀ {tracks : List (List ℚ × String)}, q ∈ tracks →
      decode D q.1 = none → decodeTracks D tracks = none := by
  intro tracks
  induction tracks with
  | nil => intro hmem; cases hmem
  | cons p ps ih =>
      intro hmem hbad
      rcases List.mem_cons.mp hmem with he | hm
      · rw [decodeTracks, ← he, hbad]
      · rw [decodeTracks]
        cases hd : decode D p.1 with
        | none => rfl
        | some m => rw [ih hm hbad]; rfl

/-- Counterexample to C8 as stated. A library of two entries at the source
dimension D = 20 — a well-formed one (20 stored floats, one frame) by artist
"A" and a corrupt one (3 stored floats, 12 bytes, not a positive multiple of
20 × 4 bytes) by artist "B" — makes the whole taste-vector computation fail
(`none`): the corrupt entry is not skipped, because the Python loop has no
exception handler around `np.frombuffer(...).reshape(20, -1)`. -/
theorem c8_counterexample :
    ([5, 5, 5] : List ℚ).length % 20 ≠ 0 ∧
      calculate_mean_mfcc 20 [(List.replicate 20 1, "A"), ([5, 5, 5], "B")] = none := by
  constructor
  · decide
  · rw [calculate_mean_mfcc,
      decodeTracks_eq_none (List.mem_cons_of_mem _ (List.mem_cons_self _ _))
        (decode_eq_none (by decide))]

/-- C8 amended: aggregation is **not** resilient to bad entries — whenever any
entry of the library view has malformed stored bytes (element count not a
multiple of D, i.e. byte length a multiple of 4 but not a positive multiple of
D × 4), the whole taste-vector computation fails with the decode error,
regardless of how many well-formed entries accompany it. -/
theorem c8_amended_corrupt_entry_fails_all (D : ℕ) (tracks : List (List ℚ × String))
    (blob : List ℚ) (artist : String) (hmem : (blob, artist) ∈ tracks)
    (hbad : blob.length % D ≠ 0) :
    calculate_mean_mfcc D tracks = none := by
  cases tracks with
  | nil => cases hmem
  | cons t ts => rw [calculate_mean_mfcc, decodeTracks_eq_none hmem (decode_eq_none hbad)]

/-- Witness for the amended C8: at D = 2, a well-formed entry next to a corrupt
single-float entry still yields `none`. -/
theorem c8_amended_witness :
    calculate_mean_mfcc 2 [([1, 1], "X"), ([7], "Y")] = none :=
  c8_amended_corrupt_entry_fails_all 2 [([1, 1], "X"), ([7], "Y")] [7] "Y"
    (by simp) (by decide)

/-! Section: permutation invariance of the aggregation (C10).

In exact arithmetic every stage of `calculate_mean_mfcc` is order-independent:
dict grouping only permutes the per-artist key order and the order of each
artist's track list, and means, variances and the decode-failure condition are
invariant under those permutations. -/

lemma firstDedup_mem {a : String} : ∀ {l : List String}, a ∈ firstDedup l ↔ a ∈ l := by
  intro l
  induction l with
  | nil => simp [firstDedup]
  | cons x rest ih =>
      by_cases hax : a = x
      · subst hax; simp [firstDedup]
      · simp [firstDedup, List.mem_filter, hax, ih, bne_iff_ne]

lemma firstDedup_nodup : ∀ (l : List String), (firstDedup l).Nodup := by
  intro l
  induction l with
  | nil => simp [firstDedup]
  | cons x rest ih =>
      rw [firstDedup]
      refine List.nodup_cons.mpr ⟨?_, ih.filter _⟩
      intro hmem
      have h := (List.mem_filter.mp hmem).2
      simp at h

lemma firstDedup_perm {l l' : List String} (h : l.Perm l') :
    (firstDedup l).Perm (firstDedup l') :=
  (List.perm_ext_iff_of_nodup (firstDedup_nodup l) (firstDedup_nodup l')).mpr
    (fun a => by rw [firstDedup_mem, firstDedup_mem]; exact h.mem_iff)

lemma listMean_perm {l l' : List ℚ} (h : l.Perm l') : listMean l = listMean l' := by
  rw [listMean, listMean, h.sum_eq, h.length_eq]

lemma colAt_perm {vs vs' : List (List ℚ)} (h : vs.Perm vs') (i : ℕ) :
    (colAt vs i).Perm (colAt vs' i) := h.map _

lemma colMean_length {n : ℕ} {vs : List (List ℚ)} (hne : vs ≠ [])
    (hlen : ∀ v ∈ vs, v.length = n) : (colMean vs).length = n := by
  cases vs with
  | nil => exact absurd rfl hne
  | cons v rest => simp [colMean, hlen v (List.mem_cons_self v rest)]

lemma colVar_length {n : ℕ} {vs : List (List ℚ)} (hne : vs ≠ [])
    (hlen : ∀ v ∈ vs, v.length = n) : (colVar vs).length = n := by
  cases vs with
  | nil => exact absurd rfl hne
  | cons v rest => simp [colVar, hlen v (List.mem_cons_self v rest)]

lemma colMean_perm {n : ℕ} {vs vs' : List (List ℚ)} (hp : vs.Perm vs') (hne : vs ≠ [])
    (hlen : ∀ v ∈ vs, v.length = n) : colMean vs = colMean vs' := by
  cases vs with
  | nil => exact absurd rfl hne
  | cons v rest =>
      cases vs' with
      | nil => simpa using hp.length_eq
      | cons w rest' =>
          have hv : v.length = n := hlen v (List.mem_cons_self v rest)
          have hw : w.length = n := hlen w (hp.symm.subset (List.mem_cons_self w rest'))
          simp only [colMean]
          rw [hv, hw]
          exact List.map_congr_left (fun i _ => listMean_perm (colAt_perm hp i))

lemma colVar_perm {n : ℕ} {vs vs' : List (List ℚ)} (hp : vs.Perm vs') (hne : vs ≠ [])
    (hlen : ∀ v ∈ vs, v.length = n) : colVar vs = colVar vs' := by
  cases vs with
  | nil => exact absurd rfl hne
  | cons v rest =>
      cases vs' with
      | nil => simpa using hp.length_eq
      | cons w rest' =>
          have hv : v.length = n := hlen v (List.mem_cons_self v rest)
          have hw : w.length = n := hlen w (hp.symm.subset (List.mem_cons_self w rest'))
          simp only [colVar]
          rw [hv, hw]
          refine List.map_congr_left (fun i _ => ?_)
          have hc := colAt_perm hp i
          rw [listMean_perm hc]
          exact listMean_perm (hc.map _)

lemma groupByArtist_colMean (ps : List (List ℚ × String)) :
    (groupByArtist ps).map (fun g => colMean g.2) =
      (firstDedup (ps.map Prod.snd)).map (fun a => colMean (artistTracks ps a)) := by
  rw [groupByArtist, List.map_map]; rfl

lemma groupByArtist_colVar (ps : List (List ℚ × String)) :
    (groupByArtist ps).map (fun g => colVar g.2) =
      (firstDedup (ps.map Prod.snd)).map (fun a => colVar (artistTracks ps a)) := by
  rw [groupByArtist, List.map_map]; rfl

lemma artistTracks_perm {ps ps' : List (List ℚ × String)} (hp : ps.Perm ps') (a : String) :
    (artistTracks ps a).Perm (artistTracks ps' a) := (hp.filter _).map _

lemma artistTracks_ne_nil {ps : List (List ℚ × String)} {a : String}
    (ha : a ∈ ps.map Prod.snd) : artistTracks ps a ≠ [] := by
  obtain ⟨p, hpm, he⟩ := List.mem_map.mp ha
  have hmem : p.1 ∈ artistTracks ps a :=
    List.mem_map.mpr ⟨p, List.mem_filter.mpr ⟨hpm, by simp [he]⟩, rfl⟩
  intro h0
  rw [h0] at hmem
  cases hmem

lemma artistTracks_length {D : ℕ} {ps : List (List ℚ × String)}
    (hlen : ∀ p ∈ ps, p.1.length = D) (a : String) :
    ∀ v ∈ artistTracks ps a, v.length = D := by
  intro v hv
  obtain ⟨p, hpf, he⟩ := List.mem_map.mp hv
  exact he ▸ hlen p (List.mem_filter.mp hpf).1

lemma aggregatePairs_perm {D : ℕ} {ps ps' : List (List ℚ × String)} (hp : ps.Perm ps')
    (hlen : ∀ p ∈ ps, p.1.length = D) : aggregatePairs D ps = aggregatePairs D ps' := by
  cases ps with
  | nil => rw [List.Perm.eq_nil hp.symm]
  | cons p rest =>
      cases ps' with
      | nil => simpa using hp.length_eq
      | cons q rest' =>
          have hlenB : ∀ r ∈ q :: rest', r.1.length = D := fun r hr => hlen r (hp.symm.subset hr)
          have hKperm :
              (firstDedup ((p :: rest).map Prod.snd)).Perm
                (firstDedup ((q :: rest').map Prod.snd)) :=
            firstDedup_perm (hp.map Prod.snd)
          have hmemB : ∀ a ∈ firstDedup ((p :: rest).map Prod.snd),
              a ∈ (q :: rest').map Prod.snd := fun a ha =>
            (hp.map Prod.snd).subset (firstDedup_mem.mp ha)
          have hgroup_mean : ∀ a ∈ firstDedup ((p :: rest).map Prod.snd),
              colMean (artistTracks (p :: rest) a) = colMean (artistTracks (q :: rest') a) :=
            fun a ha =>
              colMean_perm (artistTracks_perm hp a)
                (artistTracks_ne_nil (firstDedup_mem.mp ha)) (artistTracks_length hlen a)
          have hgroup_var : ∀ a ∈ firstDedup ((p :: rest).map Prod.snd),
              colVar (artistTracks (p :: rest) a) = colVar (artistTracks (q :: rest') a) :=
            fun a ha =>
              colVar_perm (artistTracks_perm hp a)
                (artistTracks_ne_nil (firstDedup_mem.mp ha)) (artistTracks_length hlen a)
          have hlen_mean : ∀ K : List String, (∀ a ∈ K, a ∈ (q :: rest').map Prod.snd) →
              ∀ w ∈ K.map (fun a => colMean (artistTracks (q :: rest') a)), w.length = D := by
            intro K hK w hw
            obtain ⟨a, ha, he⟩ := List.mem_map.mp hw
            exact he ▸ colMean_length (artistTracks_ne_nil (hK a ha))
              (artistTracks_length hlenB a)
          have hlen_var : ∀ K : List String, (∀ a ∈ K, a ∈ (q :: rest').map Prod.snd) →
              ∀ w ∈ K.map (fun a => colVar (artistTracks (q :: rest') a)), w.length = D := by
            intro K hK w hw
            obtain ⟨a, ha, he⟩ := List.mem_map.mp hw
            exact he ▸ colVar_length (artistTracks_ne_nil (hK a ha))
              (artistTracks_length hlenB a)
          simp only [aggregatePairs, groupByArtist_colMean, groupByArtist_colVar]
          rw [List.map_congr_left hgroup_mean, List.map_congr_left hgroup_var]
          have hne1 : ¬((firstDedup ((p :: rest).map Prod.snd)).map
              (fun a => colMean (artistTracks (q :: rest') a))).isEmpty = true := by
            simp [List.isEmpty_iff, firstDedup]
          have hne2 : ¬((firstDedup ((q :: rest').map Prod.snd)).map
              (fun a => colMean (artistTracks (q :: rest') a))).isEmpty = true := by
            simp [List.isEmpty_iff, firstDedup]
          have hne3 : ¬((firstDedup ((p :: rest).map Prod.snd)).map
              (fun a => colVar (artistTracks (q :: rest') a))).isEmpty = true := by
            simp [List.isEmpty_iff, firstDedup]
          have hne4 : ¬((firstDedup ((q :: rest').map Prod.snd)).map
              (fun a => colVar (artistTracks (q :: rest') a))).isEmpty = true := by
            simp [List.isEmpty_iff, firstDedup]
          rw [if_neg hne1, if_neg hne2, if_neg hne3, if_neg hne4]
          congr 1
          · exact colMean_perm (hKperm.map _)
              (by simp [List.map_eq_nil_iff, firstDedup]) (hlen_mean _ hmemB)
          · exact colMean_perm (hKperm.map _)
              (by simp [List.map_eq_nil_iff, firstDedup]) (hlen_var _ hmemB)

lemma takeRows_length (n k : ℕ) : ∀ (l : List ℚ), (takeRows n k l).length = n := by
  induction n with
  | zero => intro l; rfl
  | succ n ih => intro l; simp [takeRows, ih]

lemma decode_length {D : ℕ} {blob : List ℚ} {m : List (List ℚ)}
    (h : decode D blob = some m) : m.length = D := by
  cases blob with
  | nil => cases h
  | cons x xs =>
      rw [decode] at h
      by_cases hc : (x :: xs).length % D = 0
      · rw [if_pos hc] at h
        injection h with h
        rw [← h, takeRows_length]
      · rw [if_neg hc] at h; cases h

lemma decodedOpt_length {D : ℕ} {p : List ℚ × String} (h : decodedOpt D p ≠ none) :
    ((decodedOpt D p).getD ([], "")).1.length = D := by
  cases hd : decodedOpt D p with
  | none => exact absurd hd h
  | some q =>
      rw [decodedOpt] at hd
      obtain ⟨m, hm, he⟩ := Option.map_eq_some'.mp hd
      simp [← he, rowMeans, decode_length hm]

lemma decodeTracks_eq_some {D : ℕ} :
    ∀ {l : List (List ℚ × String)}, (∀ p ∈ l, decodedOpt D p ≠ none) →
      decodeTracks D l = some (l.map (fun p => (decodedOpt D p).getD ([], ""))) := by
  intro l
  induction l with
  | nil => intro _; rfl
  | cons p ps ih =>
      intro h
      have hp := h p (List.mem_cons_self p ps)
      cases hd : decode D p.1 with
      | none => rw [decodedOpt, hd] at hp; simp at hp
      | some m =>
          rw [decodeTracks, hd, ih (fun q hq => h q (List.mem_cons_of_mem p hq))]
          simp [decodedOpt, hd]

lemma calculate_mean_mfcc_perm (D : ℕ) {tracks tracks' : List (List ℚ × String)}
    (hp : tracks.Perm tracks') :
    calculate_mean_mfcc D tracks = calculate_mean_mfcc D tracks' := by
  cases tracks with
  | nil => rw [List.Perm.eq_nil hp.symm]
  | cons t ts =>
      cases tracks' with
      | nil => simpa using hp.length_eq
      | cons u us =>
          by_cases hall : ∀ p ∈ t :: ts, decodedOpt D p ≠ none
          · have hallB : ∀ p ∈ u :: us, decodedOpt D p ≠ none :=
              fun p hm => hall p (hp.symm.subset hm)
            rw [calculate_mean_mfcc, calculate_mean_mfcc, decodeTracks_eq_some hall,
              decodeTracks_eq_some hallB]
            show some (aggregatePairs D _) = some (aggregatePairs D _)
            congr 1
            refine aggregatePairs_perm (hp.map _) ?_
            intro q hq
            obtain ⟨p, hpm, he⟩ := List.mem_map.mp hq
            exact he ▸ decodedOpt_length (hall p hpm)
          · push_neg at hall
            obtain ⟨p, hpm, hpn⟩ := hall
            have hdec : decode D p.1 = none := by
              rw [decodedOpt] at hpn
              exact Option.map_eq_none'.mp hpn
            rw [calculate_mean_mfcc, calculate_mean_mfcc,
              decodeTracks_eq_none hpm hdec, decodeTracks_eq_none (hp.subset hpm) hdec]

/-- C10: in exact arithmetic the taste-vector computation is invariant under
permutation of the library view — at the source dimension D = 20, any
reordering of the `(fingerprint bytes, artist)` rows yields the same
40-dimensional result (including agreement of the failure case). -/
theorem c10_permutation_invariance (tracks tracks' : List (List ℚ × String))
    (h : tracks.Perm tracks') :
    calculate_mean_mfcc 20 tracks = calculate_mean_mfcc 20 tracks' :=
  calculate_mean_mfcc_perm 20 h

/-- Witness for C10: swapping two concrete library rows leaves the result
unchanged. -/
theorem c10_permutation_invariance_witness :
    calculate_mean_mfcc 20 [([1, 1], "A"), ([3, 3], "B")] =
      calculate_mean_mfcc 20 [([3, 3], "B"), ([1, 1], "A")] :=
  c10_permutation_invariance _ _ (List.Perm.swap _ _ _)

end VectorVibe
